import Mathlib

/-!
Verification of the `CompactVector` core of the `sucds` crate
(`src/compact_vector.rs`).

A `CompactVector` stores `len` unsigned integers, each in exactly `width`
bits, inside one bit-addressable store (`BitVector` in the crate).  The
element at position `p` occupies bits `[p*width, p*width+width)`.

The `BitVector` collaborator and `util::needed_bits` are not part of the
provided source; they are modelled from the specification's collaborator
contract (a growable bit sequence with `get_bits` / `set_bits` /
`push_bits`, serialized as an explicit length plus a 64-bit word array).
Bits are modelled as a `List Bool`, least-significant-first inside each
field.  Machine integers are modelled as `Nat`; panics and contract
violations are modelled as `Option.none`.
-/

namespace Sucds

/-- Value of a bit string, least-significant bit first. -/
def ofBits : List Bool → Nat
  | [] => 0
  | b :: t => b.toNat + 2 * ofBits t

/-- The low `w` bits of `v`, least-significant bit first. -/
def toBits : Nat → Nat → List Bool
  | 0, _ => []
  | w + 1, v => (decide (v % 2 = 1)) :: toBits w (v / 2)

/-- Modelled from the spec: the collaborator contract of `BitVector.get_bits`
(§6) — reads `width` bits starting at bit `offset`, provided
`offset + width ≤ bit_length`; `none` models the contract violation. -/
def get_bits (bs : List Bool) (offset width : Nat) : Option Nat :=
  if offset + width ≤ bs.length then some (ofBits ((bs.drop offset).take width)) else none

/-- Modelled from the spec: the collaborator contract of `BitVector.set_bits`
(§6) — overwrites `width` bits starting at `offset` with the low `width`
bits of `value`, provided `offset + width ≤ bit_length`. -/
def set_bits (bs : List Bool) (offset value width : Nat) : Option (List Bool) :=
  if offset + width ≤ bs.length then
    some (bs.take offset ++ toBits width value ++ bs.drop (offset + width))
  else none

/-- Modelled from the spec: the collaborator contract of `BitVector.push_bits`
(§6) — appends the low `width` bits of `value` at the end. -/
def push_bits (bs : List Bool) (value width : Nat) : List Bool :=
  bs ++ toBits width value

/-- Fuel-driven helper of `needed_bits`. -/
def bitsAux : Nat → Nat → Nat
  | 0, _ => 0
  | fuel + 1, x => if x = 0 then 0 else bitsAux fuel (x / 2) + 1

/-- Modelled from the spec: `crate::util::needed_bits` — the minimum number
of bits needed to represent `x` (`0` needs `0` bits in the minimal sense,
§4 `from_collection`). -/
def needed_bits (x : Nat) : Nat := bitsAux x x

/-- An 8-bit little-endian byte expansion, `k` bytes long. -/
def natToLE : Nat → Nat → List Nat
  | 0, _ => []
  | k + 1, n => n % 256 :: natToLE k (n / 256)

/-- A `u64` written in 8-byte little-endian order (`byteorder::LittleEndian`). -/
def toLE64 (n : Nat) : List Nat := natToLE 8 n

/-- Value of a little-endian byte string. -/
def bytesToNat : List Nat → Nat
  | [] => 0
  | b :: t => b + 256 * bytesToNat t

/-- Reads a `u64` from the head of a byte stream (`read_u64::<LittleEndian>`);
`none` models the I/O error on a truncated stream. -/
def readLE64 : List Nat → Option (Nat × List Nat)
  | b0 :: b1 :: b2 :: b3 :: b4 :: b5 :: b6 :: b7 :: rest =>
    some (bytesToNat [b0, b1, b2, b3, b4, b5, b6, b7], rest)
  | _ => none

/-- Fuel-driven helper of `wordsOf`; the fuel bounds the number of words. -/
def wordsAux : Nat → List Bool → List Nat
  | 0, _ => []
  | fuel + 1, bs => if bs = [] then [] else ofBits (bs.take 64) :: wordsAux fuel (bs.drop 64)

/-- The 64-bit words packing a bit sequence, in order. -/
def wordsOf (bs : List Bool) : List Nat :=
  wordsAux bs.length bs

/-- Modelled from the spec: `BitVector::serialize_into` (§6) — the bit
sequence is serialized as its explicit bit length (a `u64`) followed by its
64-bit word array, and the returned count is the number of bytes written. -/
def serializeBV (bs : List Bool) : List Nat × Nat :=
  (toLE64 bs.length ++ (wordsOf bs).flatMap toLE64, 8 + 8 * (wordsOf bs).length)

/-- Reads `k` 64-bit words from a byte stream. -/
def readWords : Nat → List Nat → Option (List Nat × List Nat)
  | 0, rest => some ([], rest)
  | k + 1, bytes =>
    (readLE64 bytes).bind fun p =>
      (readWords k p.2).map fun q => (p.1 :: q.1, q.2)

/-- Modelled from the spec: `BitVector::deserialize_from` (§6) — reads the
explicit bit length, then the word array, and rebuilds the bit sequence. -/
def deserializeBV (bytes : List Nat) : Option (List Bool × List Nat) :=
  (readLE64 bytes).bind fun p =>
    (readWords ((p.1 + 63) / 64) p.2).map fun q =>
      ((q.1.flatMap (toBits 64)).take p.1, q.2)

/-- `CompactVector` (`src/compact_vector.rs`, lines 28–33): an owned bit
store `chunks`, the element count `len` and the per-element bit width. -/
structure CompactVector where
  chunks : List Bool
  len : Nat
  width : Nat
deriving DecidableEq, Repr

namespace CompactVector

/-- `CompactVector::new` (lines 41–47). -/
def new (width : Nat) : CompactVector :=
  { chunks := [], len := 0, width := width }

/-- `CompactVector::with_capacity` (lines 50–56); capacity is only a
reservation hint of the bit store and is not observable. -/
def with_capacity (_capa width : Nat) : CompactVector :=
  { chunks := [], len := 0, width := width }

/-- `CompactVector::with_len` (lines 64–70): `len` elements of `width`
zero-initialized bits each. -/
def with_len (len width : Nat) : CompactVector :=
  { chunks := List.replicate (len * width) false, len := len, width := width }

/-- `CompactVector::get` (lines 115–118): `self.chunks.get_bits(pos * self.width, self.width)`. -/
def get (cv : CompactVector) (pos : Nat) : Option Nat :=
  get_bits cv.chunks (pos * cv.width) cv.width

/-- `CompactVector::set` (lines 138–141): `self.chunks.set_bits(pos * self.width, value, self.width)`. -/
def set (cv : CompactVector) (pos value : Nat) : Option CompactVector :=
  (set_bits cv.chunks (pos * cv.width) value cv.width).map fun c =>
    { cv with chunks := c }

/-- `CompactVector::push` (lines 160–164): `self.chunks.push_bits(value, self.width); self.len += 1`. -/
def push (cv : CompactVector) (value : Nat) : CompactVector :=
  { cv with chunks := push_bits cv.chunks value cv.width, len := cv.len + 1 }

/-- `CompactVector::is_empty` (lines 173–176). -/
def is_empty (cv : CompactVector) : Bool :=
  cv.len == 0

/-- The `set` loop of `from_slice` over an enumerated value list;
`none` models an out-of-bounds bit-store write. -/
def setLoop (cv : Option CompactVector) (l : List (Nat × Nat)) : Option CompactVector :=
  l.foldl (fun acc p => acc.bind fun c => c.set p.1 p.2) cv

/-- `CompactVector::from_slice` (lines 89–96): `ints.iter().max().unwrap()`
panics on an empty slice (modelled by `none`); otherwise a `with_len`-sized
vector of width `needed_bits(max)` is filled by positional `set`s. -/
def from_slice (ints : List Nat) : Option CompactVector :=
  match ints.max? with
  | none => none
  | some m => setLoop (some (with_len ints.length (needed_bits m))) ints.enum

/-- `CompactVector::serialize_into` (lines 184–189): the chunks' serialized
form, then `len` and `width` as little-endian `u64`s; returns the bytes
written and the reported byte count `mem + 2 * size_of::<u64>()`. -/
def serialize_into (cv : CompactVector) : List Nat × Nat :=
  let m := serializeBV cv.chunks
  (m.1 ++ toLE64 cv.len ++ toLE64 cv.width, m.2 + 16)

/-- `CompactVector::deserialize_from` (lines 191–196): reads the chunks,
then `len`, then `width`, with no re-validation of the invariant. -/
def deserialize_from (bytes : List Nat) : Option (CompactVector × List Nat) :=
  (deserializeBV bytes).bind fun c =>
    (readLE64 c.2).bind fun n =>
      (readLE64 n.2).map fun w =>
        ({ chunks := c.1, len := n.1, width := w.1 }, w.2)

end CompactVector

/-! ### Arithmetic and bit-string lemmas -/

lemma mod_mul_decomp (v b p : Nat) (hb : 0 < b) (hp : 0 < p) :
    v % (b * p) = v % b + b * (v / b % p) := by
  have hvb : v % b < b := Nat.mod_lt _ hb
  have hqp : v / b % p < p := Nat.mod_lt _ hp
  have hbp : b ≤ b * p := Nat.le_mul_of_pos_right _ hp
  have h4 : b * p = b * (p - 1) + b := by
    have h5 : p - 1 + 1 = p := by omega
    calc b * p = b * ((p - 1) + 1) := by rw [h5]
      _ = b * (p - 1) + b := by ring
  have h3 : b * (v / b % p) ≤ b * (p - 1) := Nat.mul_le_mul_left _ (by omega)
  have h1 : v % b + b * (v / b % p) < b * p := by omega
  conv_lhs => rw [← Nat.div_add_mod v b]
  rw [Nat.add_mod, Nat.mul_mod_mul_left, Nat.mod_eq_of_lt (by omega : v % b < b * p),
    Nat.mod_eq_of_lt (by omega : b * (v / b % p) + v % b < b * p)]
  omega

@[simp] lemma toBits_length (w v : Nat) : (toBits w v).length = w := by
  induction w generalizing v with
  | zero => rfl
  | succ w ih => simp [toBits, ih]

lemma decide_mod_two (v : Nat) : (decide (v % 2 = 1)).toNat = v % 2 := by
  rcases Nat.mod_two_eq_zero_or_one v with h | h <;> simp [h]

lemma ofBits_toBits (w v : Nat) : ofBits (toBits w v) = v % 2 ^ w := by
  induction w generalizing v with
  | zero => simp [toBits, ofBits, Nat.mod_one]
  | succ w ih =>
    have h2 : (2 : Nat) ^ (w + 1) = 2 * 2 ^ w := by ring
    rw [toBits, ofBits, ih, decide_mod_two, h2,
      mod_mul_decomp v 2 (2 ^ w) (by omega) (Nat.pos_pow_of_pos _ (by omega))]

lemma ofBits_lt (l : List Bool) : ofBits l < 2 ^ l.length := by
  induction l with
  | nil => simp [ofBits]
  | cons b t ih =>
    have h2 : (2 : Nat) ^ (b :: t).length = 2 * 2 ^ t.length := by
      simp [List.length_cons]; ring
    have hb : b.toNat ≤ 1 := Bool.toNat_le b
    rw [ofBits, h2]
    omega

@[simp] lemma toBits_zero (w : Nat) : toBits w 0 = List.replicate w false := by
  induction w with
  | zero => rfl
  | succ w ih => simp [toBits, ih, List.replicate_succ]

lemma toBits_ofBits_pad (l : List Bool) (w : Nat) (h : l.length ≤ w) :
    toBits w (ofBits l) = l ++ List.replicate (w - l.length) false := by
  induction l generalizing w with
  | nil => simp [ofBits]
  | cons b t ih =>
    cases w with
    | zero => simp at h
    | succ w =>
      have hlen : t.length ≤ w := by simpa using h
      have hb : b.toNat ≤ 1 := Bool.toNat_le b
      have hmod : (b.toNat + 2 * ofBits t) % 2 = b.toNat := by omega
      have hdiv : (b.toNat + 2 * ofBits t) / 2 = ofBits t := by omega
      have hbit : decide ((b.toNat + 2 * ofBits t) % 2 = 1) = b := by
        rw [hmod]; cases b <;> simp
      rw [ofBits, toBits, hbit, hdiv, ih w hlen]
      simp [List.length_cons]

lemma toBits_ofBits (l : List Bool) : toBits l.length (ofBits l) = l := by
  rw [toBits_ofBits_pad l l.length (le_refl _)]
  simp

/-! ### Flattened uniform blocks -/

lemma flatten_length_uniform (w : Nat) (blocks : List (List Bool))
    (hU : ∀ b ∈ blocks, b.length = w) :
    blocks.flatten.length = blocks.length * w := by
  induction blocks with
  | nil => simp
  | cons b bs ih =>
    have hb : b.length = w := hU b (by simp)
    have ih' := ih fun x hx => hU x (by simp [hx])
    simp [List.flatten_cons, hb, ih']
    ring

lemma flatten_drop_uniform (w : Nat) (blocks : List (List Bool)) (i : Nat)
    (hU : ∀ b ∈ blocks, b.length = w) (hi : i ≤ blocks.length) :
    blocks.flatten.drop (i * w) = (blocks.drop i).flatten := by
  induction i generalizing blocks with
  | zero => simp
  | succ i ih =>
    cases blocks with
    | nil => simp at hi
    | cons b bs =>
      have hb : b.length = w := hU b (by simp)
      have hU' : ∀ x ∈ bs, x.length = w := fun x hx => hU x (by simp [hx])
      have hi' : i ≤ bs.length := by simpa using hi
      have hstep : (i + 1) * w = b.length + i * w := by rw [hb]; ring
      rw [List.flatten_cons, hstep, List.drop_append, ih bs hU' hi']
      simp

lemma flatten_take_uniform (w : Nat) (blocks : List (List Bool)) (i : Nat)
    (hU : ∀ b ∈ blocks, b.length = w) (hi : i ≤ blocks.length) :
    blocks.flatten.take (i * w) = (blocks.take i).flatten := by
  induction i generalizing blocks with
  | zero => simp
  | succ i ih =>
    cases blocks with
    | nil => simp at hi
    | cons b bs =>
      have hb : b.length = w := hU b (by simp)
      have hU' : ∀ x ∈ bs, x.length = w := fun x hx => hU x (by simp [hx])
      have hi' : i ≤ bs.length := by simpa using hi
      have hstep : (i + 1) * w = b.length + i * w := by rw [hb]; ring
      rw [List.flatten_cons, hstep, List.take_append, ih bs hU' hi']
      simp

lemma get_bits_flatten (w : Nat) (blocks : List (List Bool)) (i : Nat)
    (hU : ∀ b ∈ blocks, b.length = w) (hi : i < blocks.length) :
    get_bits blocks.flatten (i * w) w = some (ofBits (blocks.get ⟨i, hi⟩)) := by
  have hlen : blocks.flatten.length = blocks.length * w := flatten_length_uniform w blocks hU
  have hcond : i * w + w ≤ blocks.flatten.length := by
    rw [hlen]
    have h1 : (i + 1) * w ≤ blocks.length * w := Nat.mul_le_mul_right _ (by omega)
    have h2 : (i + 1) * w = i * w + w := by ring
    omega
  have hdrop : blocks.flatten.drop (i * w) = (blocks.drop i).flatten :=
    flatten_drop_uniform w blocks i hU (by omega)
  have hcons : blocks.drop i = blocks[i] :: blocks.drop (i + 1) :=
    List.drop_eq_getElem_cons hi
  have hbw : blocks[i].length = w := hU _ (List.getElem_mem hi)
  rw [get_bits, if_pos hcond, hdrop, hcons, List.flatten_cons, ← hbw, List.take_left]
  rfl

lemma set_bits_flatten (w : Nat) (blocks : List (List Bool)) (i v : Nat)
    (hU : ∀ b ∈ blocks, b.length = w) (hi : i < blocks.length) :
    set_bits blocks.flatten (i * w) v w = some ((blocks.set i (toBits w v)).flatten) := by
  have hlen : blocks.flatten.length = blocks.length * w := flatten_length_uniform w blocks hU
  have hcond : i * w + w ≤ blocks.flatten.length := by
    rw [hlen]
    have h1 : (i + 1) * w ≤ blocks.length * w := Nat.mul_le_mul_right _ (by omega)
    have h2 : (i + 1) * w = i * w + w := by ring
    omega
  have htake : blocks.flatten.take (i * w) = (blocks.take i).flatten :=
    flatten_take_uniform w blocks i hU (by omega)
  have hdrop : blocks.flatten.drop (i * w + w) = (blocks.drop (i + 1)).flatten := by
    have : i * w + w = (i + 1) * w := by ring
    rw [this]
    exact flatten_drop_uniform w blocks (i + 1) hU (by omega)
  have hset : blocks.set i (toBits w v) =
      blocks.take i ++ toBits w v :: blocks.drop (i + 1) := by
    rw [List.set_eq_take_append_cons_drop, if_pos hi]
  rw [set_bits, if_pos hcond, htake, hdrop, hset]
  simp [List.flatten_cons]

/-! ### `needed_bits` -/

lemma bitsAux_spec (fuel : Nat) : ∀ x, x ≤ fuel →
    x < 2 ^ bitsAux fuel x ∧
    (x ≠ 0 → 2 ^ (bitsAux fuel x - 1) ≤ x ∧ 0 < bitsAux fuel x) ∧
    (∀ k, x < 2 ^ k → bitsAux fuel x ≤ k) := by
  induction fuel with
  | zero =>
    intro x hx
    have hx0 : x = 0 := by omega
    subst hx0
    refine ⟨by simp [bitsAux], fun h => absurd rfl h, fun k _ => by simp [bitsAux]⟩
  | succ fuel ih =>
    intro x hx
    by_cases h0 : x = 0
    · subst h0
      refine ⟨by simp [bitsAux], fun h => absurd rfl h, fun k _ => by simp [bitsAux]⟩
    · have hdiv : x / 2 ≤ fuel := by omega
      obtain ⟨iha, ihb, ihc⟩ := ih (x / 2) hdiv
      have hB : bitsAux (fuel + 1) x = bitsAux fuel (x / 2) + 1 := by
        simp [bitsAux, h0]
      set B := bitsAux fuel (x / 2) with hBdef
      refine ⟨?_, fun _ => ⟨?_, by omega⟩, ?_⟩
      · rw [hB]
        have h2 : (2 : Nat) ^ (B + 1) = 2 * 2 ^ B := by ring
        omega
      · rw [hB]
        simp only [Nat.add_sub_cancel]
        by_cases hq : x / 2 = 0
        · have hx1 : x = 1 := by omega
          have hB0 : B = 0 := by
            have := ihc 0 (by simp [hq])
            omega
          simp [hx1, hB0]
        · obtain ⟨hle, hpos⟩ := ihb hq
          have h2 : (2 : Nat) ^ B = 2 * 2 ^ (B - 1) := by
            calc (2 : Nat) ^ B = 2 ^ (B - 1 + 1) := by congr 1; omega
              _ = 2 * 2 ^ (B - 1) := by ring
          omega
      · intro k hk
        rw [hB]
        have hk1 : 0 < k := by
          rcases Nat.eq_zero_or_pos k with h | h
          · subst h; simp at hk; omega
          · exact h
        have hq : x / 2 < 2 ^ (k - 1) := by
          have h2 : (2 : Nat) ^ k = 2 * 2 ^ (k - 1) := by
            calc (2 : Nat) ^ k = 2 ^ (k - 1 + 1) := by congr 1; omega
              _ = 2 * 2 ^ (k - 1) := by ring
          omega
        have := ihc (k - 1) hq
        omega

lemma needed_bits_lt (x : Nat) : x < 2 ^ needed_bits x :=
  (bitsAux_spec x x (le_refl x)).1

lemma needed_bits_min (x : Nat) (h : x ≠ 0) :
    2 ^ (needed_bits x - 1) ≤ x ∧ 0 < needed_bits x :=
  (bitsAux_spec x x (le_refl x)).2.1 h

lemma needed_bits_le (x k : Nat) (h : x < 2 ^ k) : needed_bits x ≤ k :=
  (bitsAux_spec x x (le_refl x)).2.2 k h

/-! ### The `from_slice` loop -/

namespace CompactVector

lemma setLoop_blocks (w n : Nat) (vs : List Nat) :
    ∀ (k : Nat) (blocks : List (List Bool)),
      (∀ b ∈ blocks, b.length = w) → k + vs.length = blocks.length →
      setLoop (some ⟨blocks.flatten, n, w⟩) (List.enumFrom k vs) =
        some ⟨(blocks.take k ++ vs.map (toBits w)).flatten, n, w⟩ := by
  induction vs with
  | nil =>
    intro k blocks hU hk
    have hkl : k = blocks.length := by simpa using hk
    simp [setLoop, hkl, List.take_length]
  | cons v rest ih =>
    intro k blocks hU hk
    have hkb : k < blocks.length := by simp at hk; omega
    have hstep : (⟨blocks.flatten, n, w⟩ : CompactVector).set k v =
        some ⟨(blocks.set k (toBits w v)).flatten, n, w⟩ := by
      rw [set]
      simp only
      rw [set_bits_flatten w blocks k v hU hkb]
      rfl
    have hU' : ∀ b ∈ blocks.set k (toBits w v), b.length = w := by
      intro b hb
      rcases List.mem_or_eq_of_mem_set hb with h | h
      · exact hU b h
      · simp [h]
    have hk' : (k + 1) + rest.length = (blocks.set k (toBits w v)).length := by
      simp [List.length_set]
      simp at hk
      omega
    have htk : (blocks.set k (toBits w v)).take (k + 1) =
        blocks.take k ++ [toBits w v] := by
      rw [List.set_eq_take_append_cons_drop, if_pos hkb]
      have hlen : (blocks.take k).length = k := by
        simp [List.length_take]
        omega
      calc (blocks.take k ++ toBits w v :: blocks.drop (k + 1)).take (k + 1)
          = (blocks.take k ++ toBits w v :: blocks.drop (k + 1)).take
              ((blocks.take k).length + 1) := by rw [hlen]
        _ = blocks.take k ++ (toBits w v :: blocks.drop (k + 1)).take 1 :=
              List.take_append 1
        _ = blocks.take k ++ [toBits w v] := by simp
    rw [List.enumFrom_cons, setLoop, List.foldl_cons]
    have hbind : (some (⟨blocks.flatten, n, w⟩ : CompactVector)).bind
        (fun c => c.set (k, v).1 (k, v).2) =
        some ⟨(blocks.set k (toBits w v)).flatten, n, w⟩ := by
      simpa using hstep
    rw [hbind]
    have := ih (k + 1) (blocks.set k (toBits w v)) hU' hk'
    rw [setLoop] at this
    rw [this, htk]
    simp [List.map_cons, List.append_assoc]

lemma replicate_blocks (n w : Nat) :
    List.replicate (n * w) false = (List.replicate n (toBits w 0)).flatten := by
  induction n with
  | zero => simp
  | succ n ih =>
    have h1 : (n + 1) * w = w + n * w := by ring
    rw [h1, List.replicate_add, List.replicate_succ, List.flatten_cons, ← ih]
    simp

lemma from_slice_spec (ints : List Nat) (m : Nat) (hm : ints.max? = some m) :
    from_slice ints =
      some ⟨(ints.map (toBits (needed_bits m))).flatten, ints.length,
        needed_bits m⟩ := by
  rw [from_slice, hm]
  show setLoop (some (with_len ints.length (needed_bits m))) ints.enum =
    some ⟨(ints.map (toBits (needed_bits m))).flatten, ints.length, needed_bits m⟩
  have hwl : with_len ints.length (needed_bits m) =
      ⟨(List.replicate ints.length (toBits (needed_bits m) 0)).flatten,
        ints.length, needed_bits m⟩ := by
    rw [with_len, replicate_blocks]
  rw [hwl, List.enum_eq_enumFrom,
    setLoop_blocks (needed_bits m) ints.length ints 0
      (List.replicate ints.length (toBits (needed_bits m) 0))
      (fun b hb => by rcases List.mem_replicate.mp hb with ⟨_, h⟩; simp [h])
      (by simp)]
  simp

end CompactVector

/-! ### Little-endian bytes -/

@[simp] lemma natToLE_length (k n : Nat) : (natToLE k n).length = k := by
  induction k generalizing n with
  | zero => rfl
  | succ k ih => simp [natToLE, ih]

lemma bytesToNat_natToLE (k n : Nat) : bytesToNat (natToLE k n) = n % 256 ^ k := by
  induction k generalizing n with
  | zero => simp [natToLE, bytesToNat, Nat.mod_one]
  | succ k ih =>
    have h2 : (256 : Nat) ^ (k + 1) = 256 * 256 ^ k := by ring
    rw [natToLE, bytesToNat, ih, h2,
      mod_mul_decomp n 256 (256 ^ k) (by omega) (Nat.pos_pow_of_pos _ (by omega))]

lemma toLE64_explicit (n : Nat) :
    toLE64 n = [n % 256, n / 256 % 256, n / 256 / 256 % 256, n / 256 / 256 / 256 % 256,
      n / 256 / 256 / 256 / 256 % 256, n / 256 / 256 / 256 / 256 / 256 % 256,
      n / 256 / 256 / 256 / 256 / 256 / 256 % 256,
      n / 256 / 256 / 256 / 256 / 256 / 256 / 256 % 256] := rfl

lemma readLE64_toLE64 (n : Nat) (rest : List Nat) :
    readLE64 (toLE64 n ++ rest) = some (n % 2 ^ 64, rest) := by
  have h : bytesToNat (toLE64 n) = n % 256 ^ 8 := bytesToNat_natToLE 8 n
  have h2 : (256 : Nat) ^ 8 = 2 ^ 64 := by norm_num
  rw [toLE64_explicit, List.cons_append, List.cons_append, List.cons_append,
    List.cons_append, List.cons_append, List.cons_append, List.cons_append,
    List.cons_append, List.nil_append, readLE64]
  rw [toLE64_explicit] at h
  rw [h, h2]

/-! ### Word packing -/

lemma wordsAux_nil (fuel : Nat) : wordsAux fuel [] = [] := by
  cases fuel <;> simp [wordsAux]

lemma wordsAux_length (fuel : Nat) : ∀ bs : List Bool, bs.length ≤ fuel →
    (wordsAux fuel bs).length = (bs.length + 63) / 64 := by
  induction fuel with
  | zero =>
    intro bs hbs
    have : bs = [] := List.length_eq_zero.mp (by omega)
    subst this
    simp [wordsAux]
  | succ fuel ih =>
    intro bs hbs
    by_cases hnil : bs = []
    · subst hnil; simp [wordsAux]
    · have hpos : 0 < bs.length := List.length_pos.mpr hnil
      have hd : (bs.drop 64).length = bs.length - 64 := by simp
      rw [wordsAux, if_neg hnil]
      simp only [List.length_cons]
      rw [ih (bs.drop 64) (by omega), hd]
      omega

lemma wordsAux_lt (fuel : Nat) : ∀ bs : List Bool, ∀ x ∈ wordsAux fuel bs, x < 2 ^ 64 := by
  induction fuel with
  | zero => intro bs x hx; simp [wordsAux] at hx
  | succ fuel ih =>
    intro bs x hx
    by_cases hnil : bs = []
    · subst hnil; simp [wordsAux] at hx
    · rw [wordsAux, if_neg hnil] at hx
      rcases List.mem_cons.mp hx with h | h
      · subst h
        have h1 : ofBits (bs.take 64) < 2 ^ (bs.take 64).length := ofBits_lt _
        have h2 : (bs.take 64).length ≤ 64 := by simp
        have h3 : (2 : Nat) ^ (bs.take 64).length ≤ 2 ^ 64 :=
          Nat.pow_le_pow_right (by omega) h2
        omega
      · exact ih (bs.drop 64) x h

lemma wordsAux_flatMap (fuel : Nat) : ∀ bs : List Bool, bs.length ≤ fuel →
    ((wordsAux fuel bs).flatMap (toBits 64)).take bs.length = bs := by
  induction fuel with
  | zero =>
    intro bs hbs
    have : bs = [] := List.length_eq_zero.mp (by omega)
    subst this
    simp [wordsAux]
  | succ fuel ih =>
    intro bs hbs
    by_cases hnil : bs = []
    · subst hnil; simp [wordsAux]
    · have hpos : 0 < bs.length := List.length_pos.mpr hnil
      rw [wordsAux, if_neg hnil, List.flatMap_cons]
      by_cases hle : bs.length ≤ 64
      · have htake : bs.take 64 = bs := List.take_of_length_le hle
        have hdrop : bs.drop 64 = [] := List.drop_eq_nil_of_le hle
        rw [htake, hdrop, wordsAux_nil, toBits_ofBits_pad bs 64 hle]
        simp only [List.flatMap_nil, List.append_nil, List.append_assoc]
        exact List.take_left bs _
      · have ht64 : (bs.take 64).length = 64 := by simp; omega
        have hrec : ((wordsAux fuel (bs.drop 64)).flatMap (toBits 64)).take
            (bs.drop 64).length = bs.drop 64 := by
          refine ih (bs.drop 64) ?_
          simp
          omega
        have htb : toBits 64 (ofBits (bs.take 64)) = bs.take 64 := by
          have h0 := toBits_ofBits (bs.take 64)
          rwa [ht64] at h0
        have hsplit : bs.length = (bs.take 64).length + (bs.length - 64) := by
          rw [ht64]; omega
        rw [htb, hsplit, List.take_append]
        have hd : (bs.drop 64).length = bs.length - 64 := by simp
        rw [← hd, hrec, List.take_append_drop]

lemma wordsOf_length (bs : List Bool) : (wordsOf bs).length = (bs.length + 63) / 64 :=
  wordsAux_length bs.length bs (le_refl _)

lemma wordsOf_lt (bs : List Bool) : ∀ x ∈ wordsOf bs, x < 2 ^ 64 :=
  wordsAux_lt bs.length bs

lemma wordsOf_flatMap (bs : List Bool) :
    ((wordsOf bs).flatMap (toBits 64)).take bs.length = bs :=
  wordsAux_flatMap bs.length bs (le_refl _)

lemma readWords_flatMap : ∀ (ws : List Nat) (rest : List Nat),
    (∀ x ∈ ws, x < 2 ^ 64) →
    readWords ws.length (ws.flatMap toLE64 ++ rest) = some (ws, rest) := by
  intro ws
  induction ws with
  | nil => intro rest _; rfl
  | cons w t ih =>
    intro rest hlt
    have hw : w % 2 ^ 64 = w := Nat.mod_eq_of_lt (hlt w (by simp))
    rw [List.length_cons, List.flatMap_cons, List.append_assoc, readWords,
      readLE64_toLE64, hw]
    simp only [Option.some_bind]
    rw [ih rest fun x hx => hlt x (by simp [hx])]
    rfl

lemma flatMap_toLE64_length (ws : List Nat) : (ws.flatMap toLE64).length = 8 * ws.length := by
  induction ws with
  | nil => simp
  | cons w t ih => simp [List.flatMap_cons, ih, toLE64]; ring

lemma serializeBV_count (bs : List Bool) : (serializeBV bs).2 = (serializeBV bs).1.length := by
  rw [serializeBV]
  simp only [List.length_append, flatMap_toLE64_length, toLE64, natToLE_length]

lemma deserializeBV_serializeBV (bs : List Bool) (h : bs.length < 2 ^ 64)
    (rest : List Nat) :
    deserializeBV ((serializeBV bs).1 ++ rest) = some (bs, rest) := by
  rw [serializeBV]
  simp only [List.append_assoc]
  rw [deserializeBV, readLE64_toLE64, Nat.mod_eq_of_lt h]
  simp only [Option.some_bind]
  rw [← wordsOf_length bs, readWords_flatMap (wordsOf bs) rest (wordsOf_lt bs)]
  simp only [Option.map_some']
  rw [wordsOf_flatMap]

namespace CompactVector

lemma deserialize_concat (bs : List Bool) (n w : Nat) (rest : List Nat)
    (h : bs.length < 2 ^ 64) :
    deserialize_from ((serializeBV bs).1 ++ toLE64 n ++ toLE64 w ++ rest) =
      some (⟨bs, n % 2 ^ 64, w % 2 ^ 64⟩, rest) := by
  rw [deserialize_from]
  have hassoc : (serializeBV bs).1 ++ toLE64 n ++ toLE64 w ++ rest =
      (serializeBV bs).1 ++ (toLE64 n ++ (toLE64 w ++ rest)) := by
    simp [List.append_assoc]
  rw [hassoc, deserializeBV_serializeBV bs h]
  simp only [Option.some_bind]
  rw [readLE64_toLE64]
  simp only [Option.some_bind]
  rw [readLE64_toLE64]
  rfl

lemma deserialize_serialize (cv : CompactVector) (rest : List Nat)
    (hc : cv.chunks.length < 2 ^ 64) (hl : cv.len < 2 ^ 64) (hw : cv.width < 2 ^ 64) :
    deserialize_from ((serialize_into cv).1 ++ rest) = some (cv, rest) := by
  rw [serialize_into]
  simp only
  have h1 : (serializeBV cv.chunks).1 ++ toLE64 cv.len ++ toLE64 cv.width ++ rest =
      ((serializeBV cv.chunks).1 ++ toLE64 cv.len ++ toLE64 cv.width) ++ rest := by
    simp [List.append_assoc]
  rw [← h1, deserialize_concat cv.chunks cv.len cv.width rest hc,
    Nat.mod_eq_of_lt hl, Nat.mod_eq_of_lt hw]

end CompactVector

/-! ### Reads after writes -/

lemma max?_ge (l : List Nat) (m : Nat) (hm : l.max? = some m) : ∀ x ∈ l, x ≤ m := by
  have h := List.max?_eq_some_iff (fun a => le_refl a) (fun a b => max_choice a b)
    (fun a b c => Nat.max_le) |>.mp hm
  exact h.2

lemma take_length_append {α : Type} (l r : List α) (n : Nat) (h : l.length = n) :
    (l ++ r).take n = l := by
  subst h
  exact List.take_left l r

lemma drop_length_append {α : Type} (l r : List α) (n : Nat) (h : l.length = n) :
    (l ++ r).drop n = r := by
  subst h
  exact List.drop_left l r

lemma set_bits_some (bs : List Bool) (off v w : Nat) (h : off + w ≤ bs.length) :
    set_bits bs off v w = some (bs.take off ++ toBits w v ++ bs.drop (off + w)) := by
  rw [set_bits, if_pos h]

lemma set_bits_bound (bs bs' : List Bool) (off v w : Nat)
    (h : set_bits bs off v w = some bs') : off + w ≤ bs.length := by
  by_cases hc : off + w ≤ bs.length
  · exact hc
  · rw [set_bits, if_neg hc] at h
    exact Option.noConfusion h

lemma set_bits_length (bs bs' : List Bool) (off v w : Nat)
    (h : set_bits bs off v w = some bs') : bs'.length = bs.length := by
  have hc := set_bits_bound bs bs' off v w h
  rw [set_bits_some bs off v w hc] at h
  simp only [Option.some.injEq] at h
  subst h
  simp only [List.length_append, List.length_take, List.length_drop, toBits_length]
  omega

lemma get_after_set (bs bs' : List Bool) (off v w : Nat)
    (h : set_bits bs off v w = some bs') : get_bits bs' off w = some (v % 2 ^ w) := by
  have hc := set_bits_bound bs bs' off v w h
  rw [set_bits_some bs off v w hc] at h
  simp only [Option.some.injEq] at h
  subst h
  have htl : (bs.take off).length = off := by
    simp only [List.length_take]
    omega
  have hlen : (bs.take off ++ toBits w v ++ bs.drop (off + w)).length = bs.length := by
    simp only [List.length_append, List.length_take, List.length_drop, toBits_length]
    omega
  rw [get_bits, if_pos (by omega)]
  rw [List.append_assoc, drop_length_append _ _ off htl,
    take_length_append _ _ w (toBits_length w v), ofBits_toBits]

namespace CompactVector

/-- Invariant 1 of the spec's data model (§3): the bit length of the owned
store is exactly `len * width`. -/
def StoreInv (cv : CompactVector) : Prop :=
  cv.chunks.length = cv.len * cv.width

lemma set_some (cv : CompactVector) (p v : Nat) (hInv : StoreInv cv) (hp : p < cv.len) :
    ∃ cv', cv.set p v = some cv' ∧ cv'.chunks.length = cv.chunks.length ∧
      cv'.len = cv.len ∧ cv'.width = cv.width ∧ cv'.get p = some (v % 2 ^ cv.width) := by
  have hcond : p * cv.width + cv.width ≤ cv.chunks.length := by
    rw [StoreInv] at hInv
    rw [hInv]
    have h1 : (p + 1) * cv.width ≤ cv.len * cv.width :=
      Nat.mul_le_mul_right _ (by omega)
    have h2 : (p + 1) * cv.width = p * cv.width + cv.width := by ring
    omega
  have hsb := set_bits_some cv.chunks (p * cv.width) v cv.width hcond
  obtain ⟨bs', hbs'⟩ : ∃ bs', set_bits cv.chunks (p * cv.width) v cv.width = some bs' :=
    ⟨_, hsb⟩
  refine ⟨{ cv with chunks := bs' }, ?_, ?_, rfl, rfl, ?_⟩
  · rw [set, hbs']
    rfl
  · exact set_bits_length _ _ _ _ _ hbs'
  · show get_bits bs' (p * cv.width) cv.width = some (v % 2 ^ cv.width)
    exact get_after_set _ _ _ _ _ hbs'

lemma get_push (cv : CompactVector) (v : Nat) (hInv : StoreInv cv) :
    (cv.push v).get cv.len = some (v % 2 ^ cv.width) := by
  rw [StoreInv] at hInv
  rw [push, get]
  simp only
  rw [push_bits, get_bits,
    if_pos (by simp only [List.length_append, toBits_length]; omega),
    drop_length_append cv.chunks (toBits cv.width v) (cv.len * cv.width) hInv,
    List.take_of_length_le (le_of_eq (toBits_length cv.width v)), ofBits_toBits]

lemma map_toBits_uniform (w : Nat) (V : List Nat) :
    ∀ b ∈ V.map (toBits w), b.length = w := by
  intro b hb
  obtain ⟨x, _, hx⟩ := List.mem_map.mp hb
  rw [← hx, toBits_length]

lemma max?_of_ne_nil (V : List Nat) (hne : V ≠ []) : ∃ m, V.max? = some m := by
  cases h : V.max? with
  | none => exact absurd (List.max?_eq_none_iff.mp h) hne
  | some m => exact ⟨m, rfl⟩

lemma get_width_zero (cv : CompactVector) (p : Nat) (h : cv.width = 0) :
    cv.get p = some 0 := by
  rw [get, h, Nat.mul_zero, get_bits]
  simp [ofBits, toBits]

lemma push_width_zero (cv : CompactVector) (v : Nat) (h : cv.width = 0) :
    (cv.push v).chunks = cv.chunks ∧ (cv.push v).len = cv.len + 1 ∧
      (cv.push v).width = cv.width := by
  rw [push, push_bits, h]
  simp [toBits]

lemma foldl_push_width_zero (vs : List Nat) :
    ∀ cv : CompactVector, cv.width = 0 →
      vs.foldl (fun c v => c.push v) cv =
        { chunks := cv.chunks, len := cv.len + vs.length, width := 0 } := by
  induction vs with
  | nil =>
    intro cv h
    simp only [List.foldl_nil, List.length_nil, Nat.add_zero]
    cases cv
    simp_all
  | cons v t ih =>
    intro cv h
    obtain ⟨h1, h2, h3⟩ := push_width_zero cv v h
    rw [List.foldl_cons, ih (cv.push v) (by rw [h3, h]), h1, h2]
    simp only [List.length_cons]
    congr 1
    omega

end CompactVector

/-! ### The claims -/

open CompactVector

/-- Claim C1: for every non-empty finite sequence `V` of non-negative
integers, `from_slice V` constructs a vector whose `len` is the length of
`V` and whose `get i` returns exactly `V[i]` for every `i < len`.
(`from_slice` panics on an empty input, see C2, so the round-trip claim is
stated for the non-empty inputs on which construction completes.) -/
theorem from_slice_get_roundtrip (V : List Nat) (hne : V ≠ []) :
    ∃ cv, from_slice V = some cv ∧ cv.len = V.length ∧
      ∀ i, (hi : i < V.length) → cv.get i = some (V.get ⟨i, hi⟩) := by
  obtain ⟨m, hm⟩ := max?_of_ne_nil V hne
  refine ⟨_, from_slice_spec V m hm, rfl, ?_⟩
  intro i hi
  have hU := map_toBits_uniform (needed_bits m) V
  have hib : i < (V.map (toBits (needed_bits m))).length := by simpa using hi
  have hget := get_bits_flatten (needed_bits m) (V.map (toBits (needed_bits m))) i hU hib
  show get_bits (V.map (toBits (needed_bits m))).flatten
    (i * needed_bits m) (needed_bits m) = some (V.get ⟨i, hi⟩)
  rw [hget]
  have hmap : (V.map (toBits (needed_bits m))).get ⟨i, hib⟩ =
      toBits (needed_bits m) (V.get ⟨i, hi⟩) := by
    simp [List.get_eq_getElem, List.getElem_map]
  rw [hmap, ofBits_toBits]
  have hle : V.get ⟨i, hi⟩ ≤ m := max?_ge V m hm _ (List.get_mem V i hi)
  exact congrArg some (Nat.mod_eq_of_lt (lt_of_le_of_lt hle (needed_bits_lt m)))

/-- Witness for C1 at the spec's concrete scenario `[5, 256, 0, 10]`. -/
theorem from_slice_get_roundtrip_witness :
    ([5, 256, 0, 10] : List Nat) ≠ [] ∧
      ∃ cv, from_slice [5, 256, 0, 10] = some cv ∧ cv.len = (4 : Nat) ∧
        ∀ i, (hi : i < ([5, 256, 0, 10] : List Nat).length) →
          cv.get i = some (([5, 256, 0, 10] : List Nat).get ⟨i, hi⟩) :=
  ⟨by decide, from_slice_get_roundtrip [5, 256, 0, 10] (by decide)⟩

/-- Counterexample to claim C2: `from_slice` applied to the empty collection
evaluates `ints.iter().max().unwrap()` on `None` and aborts (an unwrap
panic, modelled by `none`); no `EmptyInputError` value is ever reported to
the caller — the function's return type carries no error at all. -/
theorem from_slice_empty_cex : from_slice [] = none := rfl

/-- Claim C2 as amended: constructing from a collection fails exactly on the
empty collection, and the failure is the unreported abort of `unwrap` (the
`none` of the model), not a reported `EmptyInputError` value. -/
theorem from_slice_empty_abort (V : List Nat) : from_slice V = none ↔ V = [] := by
  constructor
  · intro h
    by_contra hne
    obtain ⟨m, hm⟩ := max?_of_ne_nil V hne
    rw [from_slice_spec V m hm] at h
    exact Option.noConfusion h
  · intro h
    subst h
    rfl

/-- Witness for the amended C2: the abort happens on `[]` and not on `[3]`. -/
theorem from_slice_empty_abort_witness : ¬ from_slice [3] = none :=
  fun h => List.cons_ne_nil 3 [] ((from_slice_empty_abort [3]).mp h)

/-- Claim C3: the width computed by `from_slice` is sufficient
(`max V < 2 ^ width`) and minimal (`2 ^ (width - 1) ≤ max V` whenever
`width > 0` and `max V ≠ 0`). -/
theorem from_slice_width_minimal (V : List Nat) (m : Nat) (hm : V.max? = some m) :
    ∃ cv, from_slice V = some cv ∧ m < 2 ^ cv.width ∧
      (0 < cv.width → m ≠ 0 → 2 ^ (cv.width - 1) ≤ m) := by
  refine ⟨_, from_slice_spec V m hm, ?_, ?_⟩
  · exact needed_bits_lt m
  · intro _ hm0
    exact (needed_bits_min m hm0).1

/-- Witness for C3 at `[5, 256, 0, 10]`, whose maximum `256` needs 9 bits. -/
theorem from_slice_width_minimal_witness :
    ([5, 256, 0, 10] : List Nat).max? = some 256 ∧
      ∃ cv, from_slice [5, 256, 0, 10] = some cv ∧ 256 < 2 ^ cv.width ∧
        (0 < cv.width → (256 : Nat) ≠ 0 → 2 ^ (cv.width - 1) ≤ 256) :=
  ⟨by decide, from_slice_width_minimal [5, 256, 0, 10] 256 (by decide)⟩

/-- Counterexample to claim C4: `deserialize_from` is a public operation and
does not re-validate the invariant; the 24-byte stream declaring an empty
bit store but `len = 1`, `width = 1` deserializes successfully into a
vector whose store holds `0 ≠ len * width` bits. -/
theorem deserialize_invariant_cex :
    deserialize_from (toLE64 0 ++ toLE64 1 ++ toLE64 1) =
      some (⟨[], 1, 1⟩, []) ∧
      ¬ StoreInv ⟨[], 1, 1⟩ := by
  constructor
  · rfl
  · intro h
    simp [StoreInv] at h

/-- Claim C4 as amended: the bit length of the owned store equals
`len * width` after `new`, `with_capacity`, `with_len`, `from_slice`, `set`
and `push`; `deserialize_from` preserves it only on trusted input — in
particular on the serialized form of any vector satisfying it — but not on
arbitrary byte streams. -/
theorem store_invariant :
    (∀ w, StoreInv (new w)) ∧
    (∀ c w, StoreInv (with_capacity c w)) ∧
    (∀ n w, StoreInv (with_len n w)) ∧
    (∀ V cv, from_slice V = some cv → StoreInv cv) ∧
    (∀ cv p v cv', StoreInv cv → cv.set p v = some cv' → StoreInv cv') ∧
    (∀ cv v, StoreInv cv → StoreInv (cv.push v)) ∧
    (∀ cv rest out, StoreInv cv → cv.chunks.length < 2 ^ 64 → cv.len < 2 ^ 64 →
      cv.width < 2 ^ 64 →
      deserialize_from ((serialize_into cv).1 ++ rest) = some out → StoreInv out.1) := by
  refine ⟨?_, ?_, ?_, ?_, ?_, ?_, ?_⟩
  · intro w
    simp [StoreInv, new]
  · intro c w
    simp [StoreInv, with_capacity]
  · intro n w
    simp [StoreInv, with_len]
  · intro V cv h
    have hne : V ≠ [] := by
      intro he
      subst he
      exact Option.noConfusion h
    obtain ⟨m, hm⟩ := max?_of_ne_nil V hne
    rw [from_slice_spec V m hm] at h
    simp only [Option.some.injEq] at h
    subst h
    rw [StoreInv]
    show (V.map (toBits (needed_bits m))).flatten.length = V.length * needed_bits m
    rw [flatten_length_uniform (needed_bits m) _ (map_toBits_uniform (needed_bits m) V)]
    simp
  · intro cv p v cv' hInv h
    rw [CompactVector.set] at h
    cases hsb : set_bits cv.chunks (p * cv.width) v cv.width with
    | none => rw [hsb] at h; exact Option.noConfusion h
    | some bs' =>
      rw [hsb] at h
      simp only [Option.map_some', Option.some.injEq] at h
      subst h
      rw [StoreInv] at hInv ⊢
      show bs'.length = cv.len * cv.width
      rw [set_bits_length _ _ _ _ _ hsb]
      exact hInv
  · intro cv v hInv
    rw [StoreInv] at hInv ⊢
    rw [push]
    show (push_bits cv.chunks v cv.width).length = (cv.len + 1) * cv.width
    rw [push_bits]
    simp only [List.length_append, toBits_length, hInv]
    ring
  · intro cv rest out hInv hc hl hw h
    rw [deserialize_serialize cv rest hc hl hw] at h
    simp only [Option.some.injEq] at h
    rw [← h]
    exact hInv

/-- Witness for the amended C4, exercising the `set` and deserialize
conjuncts at concrete inputs. -/
theorem store_invariant_witness :
    (StoreInv ⟨[false, false], 2, 1⟩ ∧
      set ⟨[false, false], 2, 1⟩ 0 1 = some ⟨[true, false], 2, 1⟩) ∧
      StoreInv ⟨[true, false], 2, 1⟩ :=
  ⟨⟨rfl, by decide⟩,
    store_invariant.2.2.2.2.1 ⟨[false, false], 2, 1⟩ 0 1 ⟨[true, false], 2, 1⟩
      rfl (by decide)⟩

/-- Claim C5: serializing any constructed vector and deserializing the
produced bytes yields an equal vector (same `len`, `width`, and store,
hence the same elements), with nothing left over, and the byte count
returned by `serialize_into` equals the number of bytes written.  The
bounds are the `usize` ranges of a 64-bit platform. -/
theorem serialize_roundtrip (cv : CompactVector)
    (hc : cv.chunks.length < 2 ^ 64) (hl : cv.len < 2 ^ 64) (hw : cv.width < 2 ^ 64) :
    deserialize_from (serialize_into cv).1 = some (cv, []) ∧
      (serialize_into cv).2 = (serialize_into cv).1.length := by
  constructor
  · have h := deserialize_serialize cv [] hc hl hw
    simpa using h
  · rw [serialize_into]
    simp only
    rw [serializeBV_count]
    simp only [List.length_append, toLE64, natToLE_length]

/-- Witness for C5 on a concrete three-element width-1 vector. -/
theorem serialize_roundtrip_witness :
    ((⟨[true, false, true], 3, 1⟩ : CompactVector).chunks.length < 2 ^ 64 ∧
      (⟨[true, false, true], 3, 1⟩ : CompactVector).len < 2 ^ 64 ∧
      (⟨[true, false, true], 3, 1⟩ : CompactVector).width < 2 ^ 64) ∧
      deserialize_from (serialize_into ⟨[true, false, true], 3, 1⟩).1 =
        some (⟨[true, false, true], 3, 1⟩, []) ∧
      (serialize_into (⟨[true, false, true], 3, 1⟩ : CompactVector)).2 =
        (serialize_into (⟨[true, false, true], 3, 1⟩ : CompactVector)).1.length :=
  ⟨⟨by decide, by decide, by decide⟩,
    serialize_roundtrip ⟨[true, false, true], 3, 1⟩ (by decide) (by decide) (by decide)⟩

/-- Claim C6: the serialized form of a vector is, in order, the bit store's
own serialized form, then `len` as an 8-byte little-endian integer, then
`width` as an 8-byte little-endian integer; and deserialization reads the
three parts back in that same order (consuming exactly the bit store's
self-delimiting bytes, then one `u64` into `len`, then one `u64` into
`width`, reduced modulo `2 ^ 64` as `u64` reads are). -/
theorem serialized_format (cv : CompactVector) :
    (serialize_into cv).1 =
      (serializeBV cv.chunks).1 ++ toLE64 cv.len ++ toLE64 cv.width ∧
      ∀ bs n w rest, bs.length < 2 ^ 64 →
        deserialize_from ((serializeBV bs).1 ++ toLE64 n ++ toLE64 w ++ rest) =
          some (⟨bs, n % 2 ^ 64, w % 2 ^ 64⟩, rest) :=
  ⟨rfl, fun bs n w rest h => deserialize_concat bs n w rest h⟩

/-- Witness for C6, decoding a one-bit store followed by `len = 2`,
`width = 3` and a trailing byte. -/
theorem serialized_format_witness :
    ([false] : List Bool).length < 2 ^ 64 ∧
      deserialize_from ((serializeBV [false]).1 ++ toLE64 2 ++ toLE64 3 ++ [9]) =
        some (⟨[false], 2 % 2 ^ 64, 3 % 2 ^ 64⟩, [9]) :=
  ⟨by decide, (serialized_format (new 0)).2 [false] 2 3 [9] (by decide)⟩

/-- Claim C7: `push` increases `len` by exactly 1 and leaves `width`
unchanged; `set` at a position `pos < len` (on a vector satisfying the
store invariant) succeeds and leaves both `len` and `width` unchanged. -/
theorem push_set_stability :
    (∀ (cv : CompactVector) (v : Nat),
      (cv.push v).len = cv.len + 1 ∧ (cv.push v).width = cv.width) ∧
    (∀ (cv : CompactVector) (p v : Nat), StoreInv cv → p < cv.len →
      ∃ cv', cv.set p v = some cv' ∧ cv'.len = cv.len ∧ cv'.width = cv.width) := by
  constructor
  · intro cv v
    exact ⟨rfl, rfl⟩
  · intro cv p v hInv hp
    obtain ⟨cv', h1, _, h3, h4, _⟩ := set_some cv p v hInv hp
    exact ⟨cv', h1, h3, h4⟩

/-- Witness for C7 at a concrete width-1 vector of two elements. -/
theorem push_set_stability_witness :
    (StoreInv ⟨[false, false], 2, 1⟩ ∧ 0 < 2) ∧
      ∃ cv', set ⟨[false, false], 2, 1⟩ 0 1 = some cv' ∧
        cv'.len = 2 ∧ cv'.width = 1 :=
  ⟨⟨rfl, by decide⟩,
    push_set_stability.2 ⟨[false, false], 2, 1⟩ 0 1 rfl (by decide)⟩

/-- Claim C8: writes truncate to the field width — on a vector satisfying
the store invariant, `set pos v` (with `pos < len`) followed by `get pos`
returns `v mod 2 ^ width`, and `push v` followed by `get` of the appended
position returns `v mod 2 ^ width`; high bits are silently discarded. -/
theorem write_truncates :
    (∀ (cv : CompactVector) (p v : Nat), StoreInv cv → p < cv.len →
      ∃ cv', cv.set p v = some cv' ∧ cv'.get p = some (v % 2 ^ cv.width)) ∧
    (∀ (cv : CompactVector) (v : Nat), StoreInv cv →
      (cv.push v).get cv.len = some (v % 2 ^ cv.width)) := by
  constructor
  · intro cv p v hInv hp
    obtain ⟨cv', h1, _, _, _, h5⟩ := set_some cv p v hInv hp
    exact ⟨cv', h1, h5⟩
  · intro cv v hInv
    exact get_push cv v hInv

/-- Witness for C8: pushing `9` into a width-3 vector stores `9 mod 8 = 1`. -/
theorem write_truncates_witness :
    StoreInv (new 3) ∧ ((new 3).push 9).get (new 3).len = some (9 % 2 ^ (new 3).width) :=
  ⟨rfl, write_truncates.2 (new 3) 9 rfl⟩

/-- Counterexample to claim C9: the constructor `new` stores any
caller-supplied width unchecked, so `new 65` is reachable through the
public interface and has `width = 65 > 64`. -/
theorem width_bound_cex : (new 65).width = 65 ∧ ¬ (new 65).width ≤ 64 := by
  exact ⟨rfl, by decide⟩

/-- Claim C9 as amended: `width ≤ 64` holds for every vector built by
`from_slice` from 64-bit values (the only constructor that computes a
width); `new`, `with_capacity`, `with_len` and `deserialize_from` store the
caller- or stream-supplied width unchecked, so the bound does not hold for
every reachable vector. -/
theorem from_slice_width_bound (V : List Nat) (cv : CompactVector)
    (hV : ∀ x ∈ V, x < 2 ^ 64) (h : from_slice V = some cv) : cv.width ≤ 64 := by
  have hne : V ≠ [] := by
    intro he
    subst he
    exact Option.noConfusion h
  obtain ⟨m, hm⟩ := max?_of_ne_nil V hne
  have hmem : m ∈ V := List.max?_mem (fun a b => max_choice a b) hm
  rw [from_slice_spec V m hm] at h
  simp only [Option.some.injEq] at h
  subst h
  exact needed_bits_le m 64 (hV m hmem)

/-- Witness for the amended C9 at `from_slice [1]`. -/
theorem from_slice_width_bound_witness :
    ((∀ x ∈ ([1] : List Nat), x < 2 ^ 64) ∧
      from_slice [1] = some ⟨[true], 1, 1⟩) ∧
      (⟨[true], 1, 1⟩ : CompactVector).width ≤ 64 :=
  ⟨⟨by decide, by decide⟩,
    from_slice_width_bound [1] ⟨[true], 1, 1⟩ (by decide) (by decide)⟩

/-- Claim C10: on a width-0 vector, every `push` succeeds and increases
`len` by 1 while leaving the store empty; `get` returns `0` at every
position below `len`; and this holds along any sequence of pushes from
`new 0` as well as for `with_len n 0`. -/
theorem width_zero_behavior :
    (∀ (cv : CompactVector) (v : Nat), cv.width = 0 →
      (cv.push v).len = cv.len + 1 ∧ (cv.push v).chunks = cv.chunks) ∧
    (∀ vs : List Nat,
      (vs.foldl (fun c v => c.push v) (new 0)).len = vs.length ∧
      (vs.foldl (fun c v => c.push v) (new 0)).chunks = [] ∧
      ∀ p, p < (vs.foldl (fun c v => c.push v) (new 0)).len →
        (vs.foldl (fun c v => c.push v) (new 0)).get p = some 0) ∧
    (∀ n p, p < n → (with_len n 0).get p = some 0 ∧ (with_len n 0).chunks = []) := by
  refine ⟨?_, ?_, ?_⟩
  · intro cv v h
    obtain ⟨h1, h2, _⟩ := push_width_zero cv v h
    exact ⟨h2, h1⟩
  · intro vs
    have h := foldl_push_width_zero vs (new 0) rfl
    rw [h]
    refine ⟨by simp [new], rfl, ?_⟩
    intro p _
    exact get_width_zero _ p rfl
  · intro n p _
    refine ⟨get_width_zero _ p rfl, ?_⟩
    rw [with_len]
    simp

/-- Witness for C10: two pushes into a width-0 vector and a `with_len 2 0`
read. -/
theorem width_zero_behavior_witness :
    ((new 0).width = 0 ∧
      (((new 0).push 7).len = 0 + 1 ∧ ((new 0).push 7).chunks = (new 0).chunks)) ∧
      (0 < 2 ∧ ((with_len 2 0).get 0 = some 0 ∧ (with_len 2 0).chunks = [])) :=
  ⟨⟨rfl, width_zero_behavior.1 (new 0) 7 rfl⟩,
    ⟨by decide, width_zero_behavior.2.2 2 0 (by decide)⟩⟩

end Sucds
